import Mathlib

/-!
Verification of the `lipsum` crate (`src/lib.rs`): an order-two Markov chain
text generator with a sentence formatter.

Shallow embedding conventions:
* Rust `&str` words are modelled as `List Char` (`Word`); UTF-8 byte order on
  `&str` coincides with code-point lexicographic order, which is the `List Char`
  order used here.
* The `HashMap<Bigram, Vec<&str>>` is modelled as an association list with
  unique keys; all accesses in the source are content-based (lookups) or go
  through the separately sorted `keys` vector, so the hash iteration order is
  irrelevant.
* The random number generator (the external `rand` crate) is modelled as an
  abstract stream of naturals with a cursor; `SliceRandom::choose` draws
  `gen_range(0..len)`, modelled as `stream cursor % len`.
* The `while` recovery loop in `Words::next` is modelled with explicit fuel
  counting the number of random draws; the theorems show that one unit of fuel
  suffices for chains built by `learn`.
* Panics (`Option::unwrap` on `None`) and fuel exhaustion are modelled as
  `none` results; iterator exhaustion (`next` returning Rust `None`) is the
  inner `none` of an `Option (Option _)`.
-/

/-- A word: Rust `&str`, modelled as its list of Unicode scalars. -/
abbrev Word := List Char

/-- Model of `type Bigram<'a> = (&'a str, &'a str)`. -/
abbrev Bigram := Word × Word

/-- Rust `char::is_whitespace`: the Unicode `White_Space` code points.
Used by `str::split_whitespace` in `MarkovChain::learn`. -/
def isWS (c : Char) : Bool :=
  c.toNat = 32 || (9 ≤ c.toNat && c.toNat ≤ 13) || c.toNat = 133 ||
  c.toNat = 160 || c.toNat = 5760 || (8192 ≤ c.toNat && c.toNat ≤ 8202) ||
  c.toNat = 8232 || c.toNat = 8233 || c.toNat = 8239 || c.toNat = 8287 ||
  c.toNat = 12288

/-- Rust `char::is_ascii_punctuation` (the source's `is_ascii_punctuation`):
`!"#$%&'()*+,-./`, `:;<=>?@`, `[\]^_`` ` ``, `{|}~`. -/
def isAsciiPunct (c : Char) : Bool :=
  (33 ≤ c.toNat && c.toNat ≤ 47) || (58 ≤ c.toNat && c.toNat ≤ 64) ||
  (91 ≤ c.toNat && c.toNat ≤ 96) || (123 ≤ c.toNat && c.toNat ≤ 126)

/-- A token produced by `split_whitespace`: non-empty and free of whitespace. -/
def Token (w : Word) : Prop :=
  w ≠ [] ∧ ∀ c ∈ w, isWS c = false

instance (w : Word) : Decidable (Token w) := by
  unfold Token; infer_instance

/-- Model of `str::split_whitespace`, accumulator-based: `acc` holds the reversed
current token. Runs of whitespace are skipped; empty tokens are dropped. -/
def splitWSAux : List Char → List Char → List Word
  | [], acc => if acc.isEmpty then [] else [acc.reverse]
  | c :: cs, acc =>
    if isWS c then
      if acc.isEmpty then splitWSAux cs [] else acc.reverse :: splitWSAux cs []
    else
      splitWSAux cs (c :: acc)

/-- Model of `str::split_whitespace` collected to a list of words. -/
def splitWS (s : List Char) : List Word :=
  splitWSAux s []

/-- The random source: an abstract stream of naturals with a cursor.  This
models a seeded RNG from the external `rand` crate; a fixed `seq` and `idx`
play the role of a fixed seed. -/
structure Rng where
  seq : Nat → Nat
  idx : Nat

/-- Model of `Rng::gen_range(0..n)`: consume one draw from the stream, reduced mod `n`.
For `n > 0` the result is `< n`, matching `gen_range`'s contract. -/
def Rng.genRange (r : Rng) (n : Nat) : Nat × Rng :=
  (r.seq r.idx % n, ⟨r.seq, r.idx + 1⟩)

/-- Model of `SliceRandom::choose`: `None` on an empty slice, otherwise the element at
a freshly drawn index in `0..len`. -/
def chooseL {α : Type} [Inhabited α] (xs : List α) (r : Rng) : Option (α × Rng) :=
  match xs with
  | [] => none
  | _ :: _ =>
    let p := r.genRange xs.length
    some (xs.getD p.1 default, p.2)

/-- Model of `HashMap::get` on the association-list model of the transition table. -/
def findMap (m : List (Bigram × List Word)) (k : Bigram) : Option (List Word) :=
  match m with
  | [] => none
  | (k', v) :: rest => if k' = k then some v else findMap rest k

/-- Model of `map.entry((a, b)).or_insert_with(Vec::new).push(c)`: append `c` to the
successor list of `k`, creating the entry when absent. -/
def insertPush (m : List (Bigram × List Word)) (k : Bigram) (c : Word) :
    List (Bigram × List Word) :=
  match m with
  | [] => [(k, [c])]
  | (k', v) :: rest =>
    if k' = k then (k', v ++ [c]) :: rest else (k', v) :: insertPush rest k c

/-- Model of `HashMap::keys` of the association-list model. -/
def mapKeys (m : List (Bigram × List Word)) : List Bigram :=
  m.map Prod.fst

/-- Rust's derived `Ord` on `(&str, &str)`: lexicographic on the pair, with
byte order on each component (= code-point order of the model). -/
def bigramLE (x y : Bigram) : Prop :=
  x.1 < y.1 ∨ (x.1 = y.1 ∧ x.2 ≤ y.2)

instance : DecidableRel bigramLE := by
  unfold bigramLE; infer_instance

instance : IsTotal Bigram bigramLE := by
  constructor
  intro x y
  rcases lt_trichotomy x.1 y.1 with h | h | h
  · exact Or.inl (Or.inl h)
  · rcases le_total x.2 y.2 with h2 | h2
    · exact Or.inl (Or.inr ⟨h, h2⟩)
    · exact Or.inr (Or.inr ⟨h.symm, h2⟩)
  · exact Or.inr (Or.inl h)

instance : IsTrans Bigram bigramLE := by
  constructor
  intro x y z hxy hyz
  rcases hxy with h1 | ⟨e1, l1⟩
  · rcases hyz with h2 | ⟨e2, _⟩
    · exact Or.inl (h1.trans h2)
    · exact Or.inl (e2 ▸ h1)
  · rcases hyz with h2 | ⟨e2, l2⟩
    · exact Or.inl (e1 ▸ h2)
    · exact Or.inr ⟨e1.trans e2, l1.trans l2⟩

/-- Model of `Vec::sort_unstable` on the key vector: any correct sort for a total
antisymmetric order is extensionally insertion sort. -/
def sortKeys (l : List Bigram) : List Bigram :=
  List.insertionSort bigramLE l

/-- Model of `struct MarkovChain { map, keys }`. -/
structure MarkovChain where
  map : List (Bigram × List Word)
  keys : List Bigram

/-- Model of `MarkovChain::new` (`Default::default()`). -/
def MarkovChain.new : MarkovChain := ⟨[], []⟩

/-- Model of `words.windows(3)`: every window of three consecutive tokens. -/
def windows3 {α : Type} : List α → List (α × α × α)
  | a :: b :: c :: rest => (a, b, c) :: windows3 (b :: c :: rest)
  | _ => []

/-- Model of `MarkovChain::learn`: split on whitespace, record every 3-window
`(a, b, c)` as successor `c` of bigram `(a, b)`, then rebuild and sort the
key vector. -/
def MarkovChain.learn (mc : MarkovChain) (sentence : List Char) : MarkovChain :=
  let ws := splitWS sentence
  let m := (windows3 ws).foldl (fun m w => insertPush m (w.1, w.2.1) w.2.2) mc.map
  ⟨m, sortKeys (mapKeys m)⟩

/-- A sequence of `learn` calls starting from the empty chain. -/
def learnAll (texts : List (List Char)) : MarkovChain :=
  texts.foldl MarkovChain.learn MarkovChain.new

/-- Model of `MarkovChain::words`. -/
def MarkovChain.words (mc : MarkovChain) (state : Bigram) : Option (List Word) :=
  findMap mc.map state

/-- Model of `MarkovChain::len`. -/
def MarkovChain.len (mc : MarkovChain) : Nat :=
  mc.map.length

/-- Model of `MarkovChain::is_empty`. -/
def MarkovChain.isEmptyChain (mc : MarkovChain) : Bool :=
  mc.map.isEmpty

/-- Model of `struct Words { map, rng, keys, state }`: the word-stream iterator. -/
structure Words where
  map : List (Bigram × List Word)
  keys : List Bigram
  state : Bigram
  rng : Rng

/-- The recovery loop of `Words::next`:
`while !map.contains_key(&state) { state = *keys.choose(&mut rng).unwrap(); }`.
`fuel` bounds the number of random draws; `none` is a panic (empty `keys`)
or fuel exhaustion. -/
def recover (map : List (Bigram × List Word)) (keys : List Bigram) :
    Nat → Bigram → Rng → Option (Bigram × Rng)
  | 0, st, r => if (findMap map st).isSome then some (st, r) else none
  | fuel + 1, st, r =>
    if (findMap map st).isSome then some (st, r)
    else
      match chooseL keys r with
      | none => none
      | some (st', r') => recover map keys fuel st' r'

/-- Model of `Words::next`. Outer `none`: panic or fuel exhaustion (never happens on
chains built by `learn`); `some none`: the iterator is exhausted (empty map);
`some (some (w, it))`: yield `w` with successor iterator state `it`.
The yielded word is `state.0`, read before the recovery loop runs. -/
def Words.next (fuel : Nat) (w : Words) : Option (Option (Word × Words)) :=
  if w.map.isEmpty then some none
  else
    let result := w.state.1
    match recover w.map w.keys fuel w.state w.rng with
    | none => none
    | some (st, r) =>
      match findMap w.map st with
      | none => none
      | some nextWords =>
        match chooseL nextWords r with
        | none => none
        | some (c, r') => some (some (result, ⟨w.map, w.keys, (st.2, c), r'⟩))

/-- Model of `Iterator::take(n).collect()` on the word stream.  `none` propagates a
panic/fuel exhaustion; exhaustion of the stream just stops early. -/
def wordsTake (fuel : Nat) : Nat → Words → Option (List Word)
  | 0, _ => some []
  | n + 1, w =>
    match w.next fuel with
    | none => none
    | some none => some []
    | some (some (x, w')) => (wordsTake fuel n w').map (x :: ·)

/-- Model of `MarkovChain::iter_with_rng_from`. -/
def MarkovChain.iter_with_rng_from (mc : MarkovChain) (rng : Rng) (f : Bigram) :
    Words :=
  ⟨mc.map, mc.keys, f, rng⟩

/-- Model of `MarkovChain::iter_with_rng`: random initial bigram from `keys` (or
`("", "")` on an empty chain); `none` models the `unwrap` panic on an empty
key vector with a non-empty map. -/
def MarkovChain.iter_with_rng (mc : MarkovChain) (rng : Rng) : Option Words :=
  if mc.map.isEmpty then some (mc.iter_with_rng_from rng ([], []))
  else
    match chooseL mc.keys rng with
    | none => none
    | some (b, rng') => some (mc.iter_with_rng_from rng' b)

/-- The ASCII restriction of Rust's scalar uppercase mapping (extensionally
`Char.toUpper`).  It underlies the concrete executable instance of the
formatter (`asciiUpcase`); the capitalization claim itself is proven
parametric in the full external mapping, see `capitalizeWith`. -/
def upcase (c : Char) : Char :=
  if 97 ≤ c.toNat && c.toNat ≤ 122 then Char.ofNat (c.toNat - 32) else c

/-- The `['.', '!', '?']` membership test of `join_words`. -/
def isSentencePunct (c : Char) : Bool :=
  c = '.' || c = '!' || c = '?'

/-- Model of `capitalize` specialized to the ASCII restriction of
`str::to_uppercase` (kept executable for witnesses; extensionally the
`asciiUpcase` instance of `capitalizeWith`, which carries the faithful
parametric embedding). -/
def capitalize (word : Word) : Word :=
  match word with
  | [] => []
  | c :: rest => upcase c :: rest

/-- Model of `str::ends_with(&['.', '!', '?'])`: the sentence-ending test of
`join_words`. -/
def endsSentencePunct (s : Word) : Bool :=
  match s.getLast? with
  | some c => isSentencePunct c
  | none => false

/-- Model of `str::trim_end_matches(p)` followed by `truncate`: drop the longest
suffix of characters satisfying `p`. -/
def trimTrailing (p : Char → Bool) (s : Word) : Word :=
  (s.reverse.dropWhile p).reverse

/-- The `for word in words` loop body of `join_words`: push a space, push the
word (capitalized when the flag is set), update the flag from the raw word. -/
def joinTail : Word → Bool → List Word → Word
  | sentence, _, [] => sentence
  | sentence, needsCap, w :: ws =>
    joinTail (sentence ++ [' '] ++ (if needsCap then capitalize w else w))
      (endsSentencePunct w) ws

/-- The trailing block of `join_words`: if the sentence does not already end
with `.`, `!` or `?`, trim all trailing ASCII punctuation and push `'.'`. -/
def normalizeSentence (s : Word) : Word :=
  if endsSentencePunct s then s else trimTrailing isAsciiPunct s ++ ['.']

/-- Model of `join_words`: capitalize the first word, join the rest with the
capitalization flag, then normalize the trailing punctuation. -/
def join_words (words : List Word) : Word :=
  match words with
  | [] => []
  | w :: ws =>
    normalizeSentence (joinTail (capitalize w) (endsSentencePunct (capitalize w)) ws)

/-- Model of `capitalize` parametric in the uppercase mapping `uc`, which
stands for the external `str::to_uppercase` applied to the first Unicode
scalar: it may change the scalar and may expand it to several scalars
(`'ß'` → `"SS"`), hence the `List Char` codomain; the remainder of the word
is unchanged. -/
def capitalizeWith (uc : Char → List Char) (word : Word) : Word :=
  match word with
  | [] => []
  | c :: rest => uc c ++ rest

/-- The ASCII restriction of `str::to_uppercase` on one scalar, used as the
concrete executable instance of `capitalizeWith` (witnesses evaluate it);
the formatter theorems are proven for every admissible uppercase mapping,
including the full Unicode one. -/
def asciiUpcase (c : Char) : List Char :=
  [upcase c]

/-- The `for word in words` loop of `join_words`, parametric in the uppercase
mapping (see `capitalizeWith`). -/
def joinTailWith (uc : Char → List Char) : Word → Bool → List Word → Word
  | sentence, _, [] => sentence
  | sentence, needsCap, w :: ws =>
    joinTailWith uc (sentence ++ [' '] ++ (if needsCap then capitalizeWith uc w else w))
      (endsSentencePunct w) ws

/-- Model of `join_words` parametric in the uppercase mapping (see
`capitalizeWith`); the program's formatter is its `asciiUpcase` instance. -/
def join_wordsWith (uc : Char → List Char) (words : List Word) : Word :=
  match words with
  | [] => []
  | w :: ws =>
    normalizeSentence (joinTailWith uc (capitalizeWith uc w)
      (endsSentencePunct (capitalizeWith uc w)) ws)

/-- Spec-side description of the `join_words` loop (§4.4 of the spec),
parametric in the uppercase mapping: each subsequent word is preceded by one
space and capitalized exactly when its predecessor's raw
(pre-capitalization) content ends in `.`, `!` or `?`. -/
def tailRenderSpecWith (uc : Char → List Char) : Bool → List Word → Word
  | _, [] => []
  | cap, w :: ws =>
    (' ' :: (if cap then capitalizeWith uc w else w))
      ++ tailRenderSpecWith uc (endsSentencePunct w) ws

/-- Model of `default_rng()`: `ChaCha20Rng::seed_from_u64(97)`, an external fixed-seed
generator; modelled as one fixed concrete stream — only its fixedness is
observable in the claims. -/
def default_rng : Rng :=
  ⟨fun i => 97 + i, 0⟩

/-- Model of `MarkovChain::generate_with_rng`. -/
def MarkovChain.generate_with_rng (mc : MarkovChain) (fuel : Nat) (rng : Rng)
    (n : Nat) : Option (List Char) :=
  match mc.iter_with_rng rng with
  | none => none
  | some w => (wordsTake fuel n w).map join_words

/-- Model of `MarkovChain::generate`. -/
def MarkovChain.generate (mc : MarkovChain) (fuel : Nat) (n : Nat) :
    Option (List Char) :=
  mc.generate_with_rng fuel default_rng n

/-- Model of `MarkovChain::generate_with_rng_from`. -/
def MarkovChain.generate_with_rng_from (mc : MarkovChain) (fuel : Nat)
    (rng : Rng) (n : Nat) (f : Bigram) : Option (List Char) :=
  (wordsTake fuel n (mc.iter_with_rng_from rng f)).map join_words

/-- Model of `MarkovChain::generate_from`. -/
def MarkovChain.generate_from (mc : MarkovChain) (fuel : Nat) (n : Nat)
    (f : Bigram) : Option (List Char) :=
  mc.generate_with_rng_from fuel default_rng n f

/-- Model of `lipsum(n)`, relative to the process-wide chain (the built-in corpus
texts are external data files): `generate_from(n, ("Lorem", "ipsum"))`. -/
def lipsum (chain : MarkovChain) (fuel : Nat) (n : Nat) : Option (List Char) :=
  chain.generate_from fuel n ("Lorem".toList, "ipsum".toList)

/-- Model of `lipsum_words(n)` relative to the process-wide chain: `generate(n)`. -/
def lipsum_words (chain : MarkovChain) (fuel : Nat) (n : Nat) :
    Option (List Char) :=
  chain.generate fuel n

/-- The invariants of a chain reachable through `learn`, in finitely
quantified (decidable) form:
keys ⊆ map, map keys ⊆ keys, no empty successor list, and every stored word
is a whitespace-free non-empty token. -/
def ChainOk (mc : MarkovChain) : Prop :=
  (∀ k ∈ mc.keys, (findMap mc.map k).isSome) ∧
  (∀ kv ∈ mc.map, kv.1 ∈ mc.keys) ∧
  (∀ kv ∈ mc.map, kv.2 ≠ []) ∧
  (∀ kv ∈ mc.map, Token kv.1.1 ∧ Token kv.1.2 ∧ ∀ w ∈ kv.2, Token w)

instance (mc : MarkovChain) : Decidable (ChainOk mc) := by
  unfold ChainOk; infer_instance

/-- The `learn`-preserved part of `ChainOk` that concerns only the map. -/
def MapOk (m : List (Bigram × List Word)) : Prop :=
  (∀ kv ∈ m, kv.2 ≠ []) ∧
  (∀ kv ∈ m, Token kv.1.1 ∧ Token kv.1.2 ∧ ∀ w ∈ kv.2, Token w)

/-- Spec-side description of the `join_words` loop (§4.4 of the spec): each
subsequent word is preceded by one space and capitalized exactly when its
predecessor's raw content ends in `.`, `!` or `?`. -/
def tailRenderSpec : Bool → List Word → Word
  | _, [] => []
  | cap, w :: ws =>
    (' ' :: (if cap then capitalize w else w)) ++ tailRenderSpec (endsSentencePunct w) ws

/-- The words of `tailRenderSpec`, as a list (helper for counting). -/
def renderList : Bool → List Word → List Word
  | _, [] => []
  | cap, w :: ws =>
    (if cap then capitalize w else w) :: renderList (endsSentencePunct w) ws

theorem isWS_space : isWS ' ' = true := by decide

theorem isAsciiPunct_not_ws {c : Char} (h : isAsciiPunct c = true) : isWS c = false := by
  unfold isAsciiPunct at h
  rw [Bool.eq_false_iff]
  intro hws
  unfold isWS at hws
  simp only [Bool.or_eq_true, Bool.and_eq_true, decide_eq_true_eq] at h hws
  omega

theorem char_eq_of_toNat {c d : Char} (h : c.toNat = d.toNat) : c = d :=
  Char.ext (UInt32.ext h)

theorem toNat_upcase (c : Char) :
    (upcase c).toNat = if 97 ≤ c.toNat ∧ c.toNat ≤ 122 then c.toNat - 32 else c.toNat := by
  unfold upcase
  split_ifs with h1 h2
  · have hv : (c.toNat - 32).isValidChar := Or.inl (by omega)
    unfold Char.ofNat
    rw [dif_pos hv]
    simp [Char.ofNatAux, Char.toNat, UInt32.toNat, BitVec.toNat_ofNatLt]
  · simp only [Bool.and_eq_true, decide_eq_true_eq] at h1
    omega
  · simp only [Bool.and_eq_true, decide_eq_true_eq, not_and, not_le] at h1
    omega
  · rfl

theorem isWS_true_iff (c : Char) :
    isWS c = true ↔
      (c.toNat = 32 ∨ (9 ≤ c.toNat ∧ c.toNat ≤ 13) ∨ c.toNat = 133 ∨
       c.toNat = 160 ∨ c.toNat = 5760 ∨ (8192 ≤ c.toNat ∧ c.toNat ≤ 8202) ∨
       c.toNat = 8232 ∨ c.toNat = 8233 ∨ c.toNat = 8239 ∨ c.toNat = 8287 ∨
       c.toNat = 12288) := by
  unfold isWS
  simp only [Bool.or_eq_true, Bool.and_eq_true, decide_eq_true_eq]
  omega

theorem isSentencePunct_true_iff (c : Char) :
    isSentencePunct c = true ↔ (c.toNat = 46 ∨ c.toNat = 33 ∨ c.toNat = 63) := by
  unfold isSentencePunct
  simp only [Bool.or_eq_true, decide_eq_true_eq]
  constructor
  · rintro ((rfl | rfl) | rfl) <;> simp
  · rintro (h | h | h)
    · exact Or.inl (Or.inl (char_eq_of_toNat h))
    · exact Or.inl (Or.inr (char_eq_of_toNat h))
    · exact Or.inr (char_eq_of_toNat h)

theorem upcase_isWS (c : Char) : isWS (upcase c) = isWS c := by
  rw [Bool.eq_iff_iff, isWS_true_iff, isWS_true_iff, toNat_upcase]
  split_ifs with h
  · omega
  · exact Iff.rfl

theorem upcase_sentencePunct (c : Char) :
    isSentencePunct (upcase c) = isSentencePunct c := by
  rw [Bool.eq_iff_iff, isSentencePunct_true_iff, isSentencePunct_true_iff, toNat_upcase]
  split_ifs with h
  · omega
  · exact Iff.rfl

theorem splitWSAux_token (s : List Char) :
    ∀ acc, (∀ c ∈ acc, isWS c = false) → ∀ w ∈ splitWSAux s acc, Token w := by
  induction s with
  | nil =>
    intro acc hacc w hw
    unfold splitWSAux at hw
    by_cases he : acc.isEmpty
    · simp [he] at hw
    · simp [he] at hw
      subst hw
      refine ⟨?_, ?_⟩
      · simp only [ne_eq, List.reverse_eq_nil_iff]
        exact fun h => he (by simp [h])
      · intro c hc
        exact hacc c (List.mem_reverse.mp hc)
  | cons c cs ih =>
    intro acc hacc w hw
    unfold splitWSAux at hw
    by_cases hc : isWS c
    · simp only [hc, if_true] at hw
      by_cases he : acc.isEmpty
      · simp [he] at hw
        exact ih [] (by simp) w hw
      · simp [he] at hw
        rcases hw with hw | hw
        · subst hw
          refine ⟨?_, ?_⟩
          · simp only [ne_eq, List.reverse_eq_nil_iff]
            exact fun h => he (by simp [h])
          · intro x hx
            exact hacc x (List.mem_reverse.mp hx)
        · exact ih [] (by simp) w hw
    · simp only [hc, if_false] at hw
      refine ih (c :: acc) ?_ w hw
      intro x hx
      rcases List.mem_cons.mp hx with hx | hx
      · subst hx; exact Bool.not_eq_true _ ▸ (by simpa using hc)
      · exact hacc x hx

theorem splitWS_token {s : List Char} : ∀ w ∈ splitWS s, Token w :=
  splitWSAux_token s [] (by simp)

theorem splitWSAux_append_ws {c : Char} (hc : isWS c = true) (y : List Char) :
    ∀ x acc, splitWSAux (x ++ c :: y) acc = splitWSAux x acc ++ splitWS y := by
  intro x
  induction x with
  | nil =>
    intro acc
    simp only [List.nil_append]
    unfold splitWSAux
    by_cases he : acc.isEmpty
    · simp [hc, he, splitWS]
    · simp [hc, he, splitWS]
  | cons d ds ih =>
    intro acc
    simp only [List.cons_append]
    unfold splitWSAux
    by_cases hd : isWS d
    · by_cases he : acc.isEmpty
      · simp [hd, he, ih]
      · simp [hd, he, ih]
    · simp [hd, ih]

theorem splitWSAux_all_nonws (s : List Char) :
    ∀ acc, (∀ c ∈ s, isWS c = false) →
      splitWSAux s acc = if acc.reverse ++ s = [] then [] else [acc.reverse ++ s] := by
  induction s with
  | nil =>
    intro acc _
    unfold splitWSAux
    by_cases he : acc = []
    · subst he; simp
    · have h1 : acc.isEmpty = false := by simp [List.isEmpty_iff, he]
      have h2 : acc.reverse ++ [] ≠ [] := by simp [he]
      simp [h1, h2, he]
  | cons c cs ih =>
    intro acc hs
    have hc : isWS c = false := hs c (by simp)
    unfold splitWSAux
    simp only [hc, Bool.false_eq_true, if_false]
    rw [ih (c :: acc) (fun x hx => hs x (List.mem_cons_of_mem _ hx))]
    have : (c :: acc).reverse ++ cs = acc.reverse ++ c :: cs := by simp
    rw [this]

theorem splitWS_of_token {w : Word} (hw : Token w) : splitWS w = [w] := by
  unfold splitWS
  rw [splitWSAux_all_nonws w [] hw.2]
  simp [hw.1]

theorem splitWSAux_length_congr_suffix (u v : List Char)
    (hu : u ≠ []) (hv : v ≠ []) (hu2 : ∀ c ∈ u, isWS c = false)
    (hv2 : ∀ c ∈ v, isWS c = false) :
    ∀ t acc, (splitWSAux (t ++ u) acc).length = (splitWSAux (t ++ v) acc).length := by
  intro t
  induction t with
  | nil =>
    intro acc
    simp only [List.nil_append]
    rw [splitWSAux_all_nonws u acc hu2, splitWSAux_all_nonws v acc hv2]
    have h1 : acc.reverse ++ u ≠ [] := by simp [hu]
    have h2 : acc.reverse ++ v ≠ [] := by simp [hv]
    simp [h1, h2]
  | cons d ds ih =>
    intro acc
    simp only [List.cons_append]
    unfold splitWSAux
    by_cases hd : isWS d
    · by_cases he : acc.isEmpty
      · simp [hd, he, ih]
      · simp [hd, he, ih]
    · simp [hd, ih]

theorem capitalize_token {w : Word} (h : Token w) : Token (capitalize w) := by
  rcases w with _ | ⟨c, rest⟩
  · exact h
  · refine ⟨by simp [capitalize], ?_⟩
    intro x hx
    rcases List.mem_cons.mp hx with hx | hx
    · subst hx
      rw [upcase_isWS]
      exact h.2 c (by simp)
    · exact h.2 x (List.mem_cons_of_mem _ hx)

theorem endsSentencePunct_capitalize (w : Word) :
    endsSentencePunct (capitalize w) = endsSentencePunct w := by
  match w with
  | [] => rfl
  | [c] =>
    show isSentencePunct (upcase c) = isSentencePunct c
    exact upcase_sentencePunct c
  | c :: d :: rest =>
    show endsSentencePunct (upcase c :: d :: rest) = _
    unfold endsSentencePunct
    rw [List.getLast?_cons_cons, List.getLast?_cons_cons]

theorem joinTail_eq_append (ws : List Word) :
    ∀ s cap, joinTail s cap ws = s ++ tailRenderSpec cap ws := by
  induction ws with
  | nil => intro s cap; simp [joinTail, tailRenderSpec]
  | cons w ws ih =>
    intro s cap
    unfold joinTail tailRenderSpec
    rw [ih]
    simp

theorem renderList_length (ws : List Word) : ∀ f, (renderList f ws).length = ws.length := by
  induction ws with
  | nil => intro f; rfl
  | cons w ws ih => intro f; simp [renderList, ih]

theorem renderList_token (ws : List Word) (hws : ∀ w ∈ ws, Token w) :
    ∀ f, ∀ w ∈ renderList f ws, Token w := by
  induction ws with
  | nil => intro f w hw; simp [renderList] at hw
  | cons x xs ih =>
    intro f w hw
    unfold renderList at hw
    rcases List.mem_cons.mp hw with hw | hw
    · subst hw
      by_cases hf : f
      · simpa [hf] using capitalize_token (hws x (by simp))
      · simpa [hf] using hws x (by simp)
    · exact ih (fun y hy => hws y (List.mem_cons_of_mem _ hy)) _ w hw

theorem splitWS_render_chain (ws : List Word) :
    ∀ (f : Bool) (r : Word), Token r → (∀ w ∈ ws, Token w) →
      splitWS (r ++ tailRenderSpec f ws) = r :: renderList f ws := by
  induction ws with
  | nil =>
    intro f r hr _
    simp only [tailRenderSpec, List.append_nil, renderList]
    exact splitWS_of_token hr
  | cons w ws ih =>
    intro f r hr hws
    have hrend : Token (if f then capitalize w else w) := by
      by_cases hf : f
      · simpa [hf] using capitalize_token (hws w (by simp))
      · simpa [hf] using hws w (by simp)
    have step :
        r ++ tailRenderSpec f (w :: ws)
          = r ++ ' ' :: ((if f then capitalize w else w) ++ tailRenderSpec (endsSentencePunct w) ws) := rfl
    rw [step]
    unfold splitWS
    rw [splitWSAux_append_ws isWS_space _ r []]
    have hX := ih (endsSentencePunct w) (if f then capitalize w else w) hrend
      (fun y hy => hws y (List.mem_cons_of_mem _ hy))
    rw [hX]
    rw [splitWSAux_all_nonws r [] hr.2]
    simp [hr.1, renderList]

theorem lastChar_nonws (ws : List Word) :
    ∀ (f : Bool) (r : Word), Token r → (∀ w ∈ ws, Token w) →
      ∃ c, (r ++ tailRenderSpec f ws).getLast? = some c ∧ isWS c = false := by
  induction ws with
  | nil =>
    intro f r hr _
    refine ⟨r.getLast hr.1, ?_, hr.2 _ (List.getLast_mem hr.1)⟩
    simp only [tailRenderSpec, List.append_nil]
    exact List.getLast?_eq_getLast r hr.1
  | cons w ws ih =>
    intro f r hr hws
    have hrend : Token (if f then capitalize w else w) := by
      by_cases hf : f
      · simpa [hf] using capitalize_token (hws w (by simp))
      · simpa [hf] using hws w (by simp)
    obtain ⟨c, hc1, hc2⟩ := ih (endsSentencePunct w) (if f then capitalize w else w) hrend
      (fun y hy => hws y (List.mem_cons_of_mem _ hy))
    refine ⟨c, ?_, hc2⟩
    have step :
        r ++ tailRenderSpec f (w :: ws)
          = r ++ ' ' :: ((if f then capitalize w else w) ++ tailRenderSpec (endsSentencePunct w) ws) := rfl
    rw [step, List.getLast?_append]
    have : (' ' :: ((if f then capitalize w else w) ++ tailRenderSpec (endsSentencePunct w) ws)).getLast? = some c := by
      have h2 : (' ' :: ((if f then capitalize w else w) ++ tailRenderSpec (endsSentencePunct w) ws))
          = [' '] ++ ((if f then capitalize w else w) ++ tailRenderSpec (endsSentencePunct w) ws) := by simp
      rw [h2, List.getLast?_append, hc1]
      rfl
    rw [this]
    rfl

theorem trim_append (p : Char → Bool) (s : List Char) :
    trimTrailing p s ++ (s.reverse.takeWhile p).reverse = s := by
  unfold trimTrailing
  rw [← List.reverse_append, List.takeWhile_append_dropWhile, List.reverse_reverse]

theorem trim_suffix_mem (p : Char → Bool) (s : List Char) :
    ∀ c ∈ (s.reverse.takeWhile p).reverse, p c = true := by
  intro c hc
  exact List.mem_takeWhile_imp (List.mem_reverse.mp hc)

theorem splitWS_length_append_dot (s : List Char) (c0 : Char)
    (hlast : s.getLast? = some c0) (hc0 : isWS c0 = false) :
    (splitWS (trimTrailing isAsciiPunct s ++ ['.'])).length = (splitWS s).length := by
  have hs := trim_append isAsciiPunct s
  by_cases hT : (s.reverse.takeWhile isAsciiPunct).reverse = []
  · have hts : trimTrailing isAsciiPunct s = s := by
      have h := hs
      rw [hT, List.append_nil] at h
      exact h
    rw [hts]
    have hsplit : s.dropLast ++ [c0] = s := List.dropLast_append_getLast? c0 hlast
    rw [← hsplit]
    have h1 : s.dropLast ++ [c0] ++ ['.'] = s.dropLast ++ [c0, '.'] := by simp
    rw [h1]
    exact splitWSAux_length_congr_suffix [c0, '.'] [c0] (by simp) (by simp)
      (by intro c hc; rcases List.mem_cons.mp hc with rfl | hc
          · exact hc0
          · simp at hc; subst hc; decide)
      (by intro c hc; simp at hc; subst hc; exact hc0) s.dropLast []
  · conv_rhs => rw [← hs]
    exact splitWSAux_length_congr_suffix ['.'] _ (by simp) hT (by intro c hc; simp at hc; subst hc; decide)
      (fun c hc => isAsciiPunct_not_ws (trim_suffix_mem isAsciiPunct s c hc))
      (trimTrailing isAsciiPunct s) []

theorem join_words_count {ws : List Word} (hne : ws ≠ []) (htok : ∀ w ∈ ws, Token w) :
    (splitWS (join_words ws)).length = ws.length := by
  rcases ws with _ | ⟨w, ws'⟩
  · exact absurd rfl hne
  · have hw : Token w := htok w (by simp)
    have hws' : ∀ y ∈ ws', Token y := fun y hy => htok y (List.mem_cons_of_mem _ hy)
    have hcap : Token (capitalize w) := capitalize_token hw
    show (splitWS (normalizeSentence
      (joinTail (capitalize w) (endsSentencePunct (capitalize w)) ws'))).length = (w :: ws').length
    unfold normalizeSentence
    rw [joinTail_eq_append]
    have hchain := splitWS_render_chain ws' (endsSentencePunct (capitalize w)) (capitalize w) hcap hws'
    have hcount : (splitWS (capitalize w ++ tailRenderSpec (endsSentencePunct (capitalize w)) ws')).length
        = ws'.length + 1 := by
      rw [hchain]
      simp [renderList_length]
    obtain ⟨c0, hc0, hc0ws⟩ := lastChar_nonws ws' (endsSentencePunct (capitalize w)) (capitalize w) hcap hws'
    by_cases hend : endsSentencePunct (capitalize w ++ tailRenderSpec (endsSentencePunct (capitalize w)) ws')
    · simp only [hend, if_true]
      rw [hcount]
      simp
    · simp only [hend, Bool.false_eq_true, if_false]
      rw [splitWS_length_append_dot _ c0 hc0 hc0ws, hcount]
      simp

theorem head?_dropWhile_not (p : Char → Bool) :
    ∀ (l : List Char) (d : Char), (l.dropWhile p).head? = some d → p d = false := by
  intro l
  induction l with
  | nil => intro d h; cases h
  | cons x xs ih =>
    intro d h
    by_cases hx : p x = true
    · rw [List.dropWhile_cons_of_pos hx] at h
      exact ih d h
    · rw [List.dropWhile_cons_of_neg hx] at h
      simp only [List.head?_cons, Option.some.injEq] at h
      subst h
      exact Bool.eq_false_iff.mpr hx

theorem trim_getLast_not (p : Char → Bool) (s : List Char) (d : Char)
    (h : (trimTrailing p s).getLast? = some d) : p d = false := by
  unfold trimTrailing at h
  rw [List.getLast?_reverse] at h
  exact head?_dropWhile_not p s.reverse d h

theorem findMap_mem {m : List (Bigram × List Word)} {k : Bigram} {v : List Word}
    (h : findMap m k = some v) : (k, v) ∈ m := by
  induction m with
  | nil => cases h
  | cons kv rest ih =>
    rcases kv with ⟨k', v'⟩
    unfold findMap at h
    by_cases hk : k' = k
    · subst hk
      rw [if_pos rfl] at h
      cases h
      exact List.mem_cons_self _ _
    · rw [if_neg hk] at h
      exact List.mem_cons_of_mem _ (ih h)

theorem findMap_isSome_iff {m : List (Bigram × List Word)} {k : Bigram} :
    (findMap m k).isSome = true ↔ k ∈ mapKeys m := by
  induction m with
  | nil => simp [findMap, mapKeys]
  | cons kv rest ih =>
    rcases kv with ⟨k', v'⟩
    unfold findMap
    by_cases hk : k' = k
    · subst hk
      simp [mapKeys]
    · rw [if_neg hk]
      simp only [mapKeys, List.map_cons, List.mem_cons]
      rw [ih]
      constructor
      · intro h; exact Or.inr (by simpa [mapKeys] using h)
      · rintro (h | h)
        · exact absurd h.symm hk
        · simpa [mapKeys] using h

theorem insertPush_pred {P : Bigram × List Word → Prop}
    {k : Bigram} {c : Word} (hnew : P (k, [c]))
    (hext : ∀ k' v, P (k', v) → P (k', v ++ [c])) :
    ∀ m, (∀ kv ∈ m, P kv) → ∀ kv ∈ insertPush m k c, P kv := by
  intro m
  induction m with
  | nil =>
    intro _ kv hkv
    unfold insertPush at hkv
    simp only [List.mem_singleton] at hkv
    subst hkv
    exact hnew
  | cons hd rest ih =>
    intro hm kv hkv
    rcases hd with ⟨k', v'⟩
    unfold insertPush at hkv
    by_cases hk : k' = k
    · subst hk
      rw [if_pos rfl] at hkv
      rcases List.mem_cons.mp hkv with hkv | hkv
      · subst hkv
        exact hext _ _ (hm _ (by simp))
      · exact hm _ (List.mem_cons_of_mem _ hkv)
    · rw [if_neg hk] at hkv
      rcases List.mem_cons.mp hkv with hkv | hkv
      · subst hkv
        exact hm _ (by simp)
      · exact ih (fun y hy => hm y (List.mem_cons_of_mem _ hy)) kv hkv

theorem windows3_mem {α : Type} : ∀ (l : List α) w, w ∈ windows3 l →
    w.1 ∈ l ∧ w.2.1 ∈ l ∧ w.2.2 ∈ l
  | a :: b :: c :: rest, w, hw => by
    rw [show windows3 (a :: b :: c :: rest) = (a, b, c) :: windows3 (b :: c :: rest) from rfl]
      at hw
    rcases List.mem_cons.mp hw with hw | hw
    · subst hw
      exact ⟨by simp, by simp, by simp⟩
    · have h := windows3_mem (b :: c :: rest) w hw
      exact ⟨List.mem_cons_of_mem _ h.1, List.mem_cons_of_mem _ h.2.1,
        List.mem_cons_of_mem _ h.2.2⟩
  | [], w, hw => by cases hw
  | [a], w, hw => by cases hw
  | [a, b], w, hw => by cases hw

theorem learn_map_ok {mc : MarkovChain} (h : MapOk mc.map) (s : List Char) :
    MapOk (mc.learn s).map := by
  have hwin : ∀ w ∈ windows3 (splitWS s), Token w.1 ∧ Token w.2.1 ∧ Token w.2.2 := by
    intro w hw
    have hm := windows3_mem (splitWS s) w hw
    exact ⟨splitWS_token _ hm.1, splitWS_token _ hm.2.1, splitWS_token _ hm.2.2⟩
  show MapOk ((windows3 (splitWS s)).foldl
    (fun m w => insertPush m (w.1, w.2.1) w.2.2) mc.map)
  have main : ∀ (l : List (Word × Word × Word)) m,
      (∀ w ∈ l, Token w.1 ∧ Token w.2.1 ∧ Token w.2.2) → MapOk m →
      MapOk (l.foldl (fun m w => insertPush m (w.1, w.2.1) w.2.2) m) := by
    intro l
    induction l with
    | nil => intro m _ hm; exact hm
    | cons x xs ih =>
      intro m hl hm
      simp only [List.foldl_cons]
      refine ih _ (fun y hy => hl y (List.mem_cons_of_mem _ hy)) ?_
      have hx := hl x (by simp)
      constructor
      · exact insertPush_pred (by simp) (fun k' v _ => by simp) m hm.1
      · exact insertPush_pred ⟨hx.1, hx.2.1, by
            intro w hw
            simp only [List.mem_singleton] at hw
            subst hw
            exact hx.2.2⟩
          (fun k' v hv => ⟨hv.1, hv.2.1, by
            intro w hw
            rcases List.mem_append.mp hw with hw | hw
            · exact hv.2.2 w hw
            · simp only [List.mem_singleton] at hw
              subst hw
              exact hx.2.2⟩) m hm.2
  exact main _ _ hwin h

theorem learn_keys_eq (mc : MarkovChain) (s : List Char) :
    (mc.learn s).keys = sortKeys (mapKeys (mc.learn s).map) := rfl

theorem mem_sortKeys {l : List Bigram} {k : Bigram} : k ∈ sortKeys l ↔ k ∈ l := by
  unfold sortKeys
  exact List.mem_insertionSort bigramLE

theorem chainOk_of_learn {mc : MarkovChain} (h : MapOk mc.map) (s : List Char) :
    ChainOk (mc.learn s) := by
  have hmap := learn_map_ok h s
  refine ⟨?_, ?_, hmap.1, hmap.2⟩
  · intro k hk
    rw [learn_keys_eq, mem_sortKeys] at hk
    exact findMap_isSome_iff.mpr hk
  · intro kv hkv
    rw [learn_keys_eq, mem_sortKeys]
    exact List.mem_map_of_mem Prod.fst hkv

theorem chainOk_mapOk {mc : MarkovChain} (h : ChainOk mc) : MapOk mc.map :=
  ⟨h.2.2.1, h.2.2.2⟩

theorem foldl_learn_ok : ∀ (texts : List (List Char)) (mc : MarkovChain),
    ChainOk mc → ChainOk (texts.foldl MarkovChain.learn mc) := by
  intro texts
  induction texts with
  | nil => intro mc h; exact h
  | cons t ts ih =>
    intro mc h
    simp only [List.foldl_cons]
    exact ih _ (chainOk_of_learn (chainOk_mapOk h) t)

theorem chainOk_new : ChainOk MarkovChain.new := by decide

theorem learnAll_ok (texts : List (List Char)) : ChainOk (learnAll texts) :=
  foldl_learn_ok texts MarkovChain.new chainOk_new

theorem foldl_learn_sorted : ∀ (texts : List (List Char)) (mc : MarkovChain),
    List.Sorted bigramLE mc.keys →
    List.Sorted bigramLE (texts.foldl MarkovChain.learn mc).keys := by
  intro texts
  induction texts with
  | nil => intro mc h; exact h
  | cons t ts ih =>
    intro mc h
    simp only [List.foldl_cons]
    refine ih _ ?_
    rw [learn_keys_eq]
    exact List.sorted_insertionSort bigramLE _

theorem learnAll_sorted (texts : List (List Char)) :
    List.Sorted bigramLE (learnAll texts).keys :=
  foldl_learn_sorted texts MarkovChain.new List.sorted_nil

theorem chooseL_exists {α : Type} [Inhabited α] {xs : List α} (h : xs ≠ []) (r : Rng) :
    ∃ x r', chooseL xs r = some (x, r') ∧ x ∈ xs := by
  rcases xs with _ | ⟨a, tl⟩
  · exact absurd rfl h
  · have hlen : 0 < (a :: tl).length := by simp
    have hi : r.seq r.idx % (a :: tl).length < (a :: tl).length := Nat.mod_lt _ hlen
    refine ⟨(a :: tl).getD (r.seq r.idx % (a :: tl).length) default, ⟨r.seq, r.idx + 1⟩, rfl, ?_⟩
    rw [List.getD_eq_getElem _ _ hi]
    exact List.getElem_mem hi

theorem chooseL_mem {α : Type} [Inhabited α] {xs : List α} {r : Rng} {x : α} {r' : Rng}
    (h : chooseL xs r = some (x, r')) : x ∈ xs := by
  rcases xs with _ | ⟨a, tl⟩
  · cases h
  · unfold chooseL at h
    simp only [Option.some.injEq, Prod.mk.injEq] at h
    have hlen : 0 < (a :: tl).length := by simp
    have hi : (r.genRange (a :: tl).length).1 < (a :: tl).length := Nat.mod_lt _ hlen
    rw [← h.1, List.getD_eq_getElem _ _ hi]
    exact List.getElem_mem hi

theorem recover_of_valid {map : List (Bigram × List Word)} {keys : List Bigram}
    (st : Bigram) (r : Rng) (h : (findMap map st).isSome) :
    ∀ fuel, recover map keys fuel st r = some (st, r) := by
  intro fuel
  cases fuel <;> simp [recover, h]

theorem recover_isSome_find {map : List (Bigram × List Word)} {keys : List Bigram} :
    ∀ {fuel : Nat} {st : Bigram} {r : Rng} {st' : Bigram} {r' : Rng},
      recover map keys fuel st r = some (st', r') → (findMap map st').isSome := by
  intro fuel
  induction fuel with
  | zero =>
    intro st r st' r' h
    unfold recover at h
    by_cases hst : (findMap map st).isSome
    · rw [if_pos hst] at h
      cases h
      exact hst
    · rw [if_neg hst] at h
      cases h
  | succ n ih =>
    intro st r st' r' h
    unfold recover at h
    by_cases hst : (findMap map st).isSome
    · rw [if_pos hst] at h
      cases h
      exact hst
    · rw [if_neg hst] at h
      rcases hch : chooseL keys r with _ | ⟨k, r2⟩
      · rw [hch] at h
        cases h
      · rw [hch] at h
        exact ih h

theorem recover_fuel_indep {map : List (Bigram × List Word)} {keys : List Bigram}
    (hkeys : ∀ k ∈ keys, (findMap map k).isSome) (hkne : keys ≠ [])
    (fuel : Nat) (hfuel : 1 ≤ fuel) (st : Bigram) (r : Rng) :
    recover map keys fuel st r = recover map keys 1 st r ∧
      (recover map keys 1 st r).isSome := by
  by_cases hst : (findMap map st).isSome
  · rw [recover_of_valid st r hst fuel, recover_of_valid st r hst 1]
    simp
  · obtain ⟨fuel', rfl⟩ : ∃ f, fuel = f + 1 := ⟨fuel - 1, by omega⟩
    show recover map keys (fuel' + 1) st r = recover map keys (0 + 1) st r ∧ _
    unfold recover
    rw [if_neg hst, if_neg hst]
    obtain ⟨k, r2, hch, hkmem⟩ := chooseL_exists hkne r
    simp only [hch]
    have hk := hkeys k hkmem
    rw [recover_of_valid k r2 hk fuel', recover_of_valid k r2 hk 0]
    simp

theorem words_next_eq {map : List (Bigram × List Word)} {keys : List Bigram}
    {st : Bigram} {r : Rng} {fuel : Nat} {st' : Bigram} {r' : Rng}
    {sl : List Word} {c : Word} {r'' : Rng}
    (hmapne : map ≠ [])
    (hrec : recover map keys fuel st r = some (st', r'))
    (hfs : findMap map st' = some sl)
    (hch : chooseL sl r' = some (c, r'')) :
    Words.next fuel ⟨map, keys, st, r⟩
      = some (some (st.1, ⟨map, keys, (st'.2, c), r''⟩)) := by
  unfold Words.next
  have hne : map.isEmpty = false := by simp [List.isEmpty_iff, hmapne]
  simp only [hne, Bool.false_eq_true, if_false, hrec, hfs, hch]

theorem wordsTake_total {map : List (Bigram × List Word)} {keys : List Bigram}
    (hkeys : ∀ k ∈ keys, (findMap map k).isSome) (hkne : keys ≠ [])
    (hsucc : ∀ kv ∈ map, kv.2 ≠ []) (hmapne : map ≠ [])
    (htok : ∀ kv ∈ map, Token kv.1.1 ∧ Token kv.1.2 ∧ ∀ w ∈ kv.2, Token w)
    {fuel : Nat} (hfuel : 1 ≤ fuel) :
    ∀ (n : Nat) (st : Bigram) (r : Rng),
      ∃ ws, wordsTake fuel n ⟨map, keys, st, r⟩ = some ws ∧ ws.length = n ∧
        (Token st.1 → ∀ w ∈ ws, Token w) := by
  intro n
  induction n with
  | zero => intro st r; exact ⟨[], rfl, rfl, by intro _ w hw; cases hw⟩
  | succ n ih =>
    intro st r
    obtain ⟨heq, hsome⟩ := recover_fuel_indep hkeys hkne fuel hfuel st r
    have hrs : (recover map keys fuel st r).isSome := by rw [heq]; exact hsome
    obtain ⟨⟨st', r'⟩, hrec⟩ := Option.isSome_iff_exists.mp hrs
    have hfind : (findMap map st').isSome := recover_isSome_find hrec
    obtain ⟨sl, hfs⟩ := Option.isSome_iff_exists.mp hfind
    have hsne : sl ≠ [] := hsucc _ (findMap_mem hfs)
    obtain ⟨c, r'', hch, hcm⟩ := chooseL_exists hsne r'
    have hnext := words_next_eq hmapne hrec hfs hch
    obtain ⟨ws, hws, hlen, htoks⟩ := ih (st'.2, c) r''
    have hentry := htok _ (findMap_mem hfs)
    refine ⟨st.1 :: ws, ?_, by simp [hlen], ?_⟩
    · unfold wordsTake
      simp [hnext, hws]
    · intro hst w hw
      rcases List.mem_cons.mp hw with hw | hw
      · subst hw
        exact hst
      · exact htoks hentry.2.1 w hw

theorem chooseL_singleton {α : Type} [Inhabited α] (x : α) (r : Rng) :
    chooseL [x] r = some (x, ⟨r.seq, r.idx + 1⟩) := by
  simp [chooseL, Rng.genRange, Nat.mod_one]

/-- C1: For every non-empty chain, each call to the word-stream operation
`next` returns the first element `a` of the current bigram cursor — read
before any recovery of an invalid state — then, once the (possibly repaired)
bigram `st'` is a valid key, draws a successor `c` from that key's successor
list (the uniform draw of `SliceRandom::choose`) and advances the cursor to
`(st'.2, c)`. -/
theorem claim1_next_yields_head_then_advances (wd : Words) (fuel : Nat)
    (st' : Bigram) (r' : Rng) (sl : List Word) (c : Word) (r'' : Rng)
    (hne : wd.map ≠ [])
    (hrec : recover wd.map wd.keys fuel wd.state wd.rng = some (st', r'))
    (hfs : findMap wd.map st' = some sl)
    (hch : chooseL sl r' = some (c, r'')) :
    wd.next fuel = some (some (wd.state.1, ⟨wd.map, wd.keys, (st'.2, c), r''⟩)) ∧
      c ∈ sl := by
  obtain ⟨m, k, s, r⟩ := wd
  exact ⟨words_next_eq hne hrec hfs hch, chooseL_mem hch⟩

theorem claim1_witness :
    Words.next 1
        ⟨[(("ab".toList, "cd".toList), ["ef".toList])],
         [("ab".toList, "cd".toList)], ("ab".toList, "cd".toList), ⟨fun _ => 0, 0⟩⟩
      = some (some ("ab".toList,
          ⟨[(("ab".toList, "cd".toList), ["ef".toList])],
           [("ab".toList, "cd".toList)], ("cd".toList, "ef".toList), ⟨fun _ => 0, 1⟩⟩)) ∧
      "ef".toList ∈ ["ef".toList] :=
  claim1_next_yields_head_then_advances
    ⟨[(("ab".toList, "cd".toList), ["ef".toList])],
     [("ab".toList, "cd".toList)], ("ab".toList, "cd".toList), ⟨fun _ => 0, 0⟩⟩
    1 ("ab".toList, "cd".toList) ⟨fun _ => 0, 0⟩ ["ef".toList] "ef".toList
    ⟨fun _ => 0, 1⟩ (by decide) rfl rfl rfl

/-- C4: After any sequence of `learn` calls starting from the empty chain,
every bigram key of the table has a non-empty successor list, and the key
index is exactly the set of the table's keys, held in sorted (hence
deterministic) order. -/
theorem claim4_learn_invariants (texts : List (List Char)) :
    (∀ kv ∈ (learnAll texts).map, kv.2 ≠ []) ∧
    (∀ k : Bigram,
      k ∈ (learnAll texts).keys ↔ (findMap (learnAll texts).map k).isSome = true) ∧
    List.Sorted bigramLE (learnAll texts).keys := by
  have hok := learnAll_ok texts
  refine ⟨hok.2.2.1, ?_, learnAll_sorted texts⟩
  intro k
  constructor
  · exact hok.1 k
  · intro h
    obtain ⟨kv, hkv, hfst⟩ := List.mem_map.mp (findMap_isSome_iff.mp h)
    rw [← hfst]
    exact hok.2.1 kv hkv

theorem endsSentencePunct_asciiUpcase (c : Char) :
    endsSentencePunct (asciiUpcase c) = isSentencePunct c := by
  show isSentencePunct (upcase c) = isSentencePunct c
  exact upcase_sentencePunct c

theorem getLast?_append_ne_nil {α : Type} (xs : List α) {ys : List α} (h : ys ≠ []) :
    (xs ++ ys).getLast? = ys.getLast? := by
  rw [List.getLast?_append, List.getLast?_eq_getLast ys h]
  rfl

theorem endsSentencePunct_capitalizeWith (uc : Char → List Char)
    (huc : ∀ c, endsSentencePunct (uc c) = isSentencePunct c) (w : Word) :
    endsSentencePunct (capitalizeWith uc w) = endsSentencePunct w := by
  match w with
  | [] => rfl
  | [c] =>
    show endsSentencePunct (uc c ++ []) = _
    rw [List.append_nil, huc c]
    rfl
  | c :: d :: rest =>
    show endsSentencePunct (uc c ++ (d :: rest)) = _
    unfold endsSentencePunct
    rw [getLast?_append_ne_nil _ (by simp), List.getLast?_cons_cons]

theorem joinTailWith_eq_append (uc : Char → List Char) (ws : List Word) :
    ∀ s cap, joinTailWith uc s cap ws = s ++ tailRenderSpecWith uc cap ws := by
  induction ws with
  | nil => intro s cap; simp [joinTailWith, tailRenderSpecWith]
  | cons w ws ih =>
    intro s cap
    unfold joinTailWith tailRenderSpecWith
    rw [ih]
    simp

theorem capitalize_eq_with (w : Word) : capitalize w = capitalizeWith asciiUpcase w := by
  cases w <;> rfl

theorem joinTail_eq_with (ws : List Word) :
    ∀ s cap, joinTail s cap ws = joinTailWith asciiUpcase s cap ws := by
  induction ws with
  | nil => intro s cap; rfl
  | cons w ws ih =>
    intro s cap
    show joinTail (s ++ [' '] ++ (if cap then capitalize w else w)) (endsSentencePunct w) ws
      = joinTailWith asciiUpcase
          (s ++ [' '] ++ (if cap then capitalizeWith asciiUpcase w else w))
          (endsSentencePunct w) ws
    rw [← capitalize_eq_with w]
    exact ih _ _

theorem join_words_eq_with (ws : List Word) :
    join_words ws = join_wordsWith asciiUpcase ws := by
  cases ws with
  | nil => rfl
  | cons w ws =>
    show normalizeSentence (joinTail (capitalize w) (endsSentencePunct (capitalize w)) ws)
      = normalizeSentence (joinTailWith asciiUpcase (capitalizeWith asciiUpcase w)
          (endsSentencePunct (capitalizeWith asciiUpcase w)) ws)
    rw [← capitalize_eq_with w, joinTail_eq_with]

/-- C6: The formatter capitalizes the first word by applying the uppercase
mapping `uc` — the external `str::to_uppercase`, which may change or expand
the scalar — to its first Unicode scalar, remainder unchanged
(`capitalizeWith uc (c :: cs) = uc c ++ cs`), and renders every subsequent
word after a single space, capitalized exactly when its predecessor's raw
(pre-capitalization) content ends in `.`, `!` or `?`, before the final
terminal-punctuation normalization.  This holds for every mapping with the
Unicode property `huc` (a scalar's uppercase ends in a sentence terminator
iff the scalar is one: terminators are uncased and no case mapping produces
them), in particular the real one; the program model `join_words` is the
`asciiUpcase` instance. -/
theorem claim6_capitalization (uc : Char → List Char)
    (huc : ∀ c, endsSentencePunct (uc c) = isSentencePunct c)
    (w : Word) (ws : List Word) :
    join_wordsWith uc (w :: ws)
      = normalizeSentence (capitalizeWith uc w
          ++ tailRenderSpecWith uc (endsSentencePunct w) ws) ∧
    (∀ (c : Char) (cs : List Char), capitalizeWith uc (c :: cs) = uc c ++ cs) ∧
    join_words (w :: ws) = join_wordsWith asciiUpcase (w :: ws) := by
  refine ⟨?_, fun c cs => rfl, join_words_eq_with _⟩
  show normalizeSentence (joinTailWith uc (capitalizeWith uc w)
    (endsSentencePunct (capitalizeWith uc w)) ws) = _
  rw [joinTailWith_eq_append, endsSentencePunct_capitalizeWith uc huc]

theorem claim6_witness :
    join_wordsWith asciiUpcase ["ab.".toList, "cd".toList]
      = normalizeSentence (capitalizeWith asciiUpcase "ab.".toList
          ++ tailRenderSpecWith asciiUpcase (endsSentencePunct "ab.".toList) ["cd".toList]) ∧
    (∀ (c : Char) (cs : List Char),
      capitalizeWith asciiUpcase (c :: cs) = asciiUpcase c ++ cs) ∧
    join_words ["ab.".toList, "cd".toList]
      = join_wordsWith asciiUpcase ["ab.".toList, "cd".toList] :=
  claim6_capitalization asciiUpcase (fun c => endsSentencePunct_asciiUpcase c)
    ("ab.".toList) ["cd".toList]

/-- C7: Generation is deterministic in its inputs: identically-seeded random
sources (same stream, same cursor) yield byte-identical strings, and the
no-RNG entry points are definitionally the fixed-seed `default_rng`
instances, so repeated calls with the same arguments agree. -/
theorem claim7_determinism (mc : MarkovChain) (fuel n : Nat) (st : Bigram)
    (r1 r2 : Rng) (h1 : r1.seq = r2.seq) (h2 : r1.idx = r2.idx) :
    mc.generate_with_rng fuel r1 n = mc.generate_with_rng fuel r2 n ∧
    mc.generate_with_rng_from fuel r1 n st = mc.generate_with_rng_from fuel r2 n st ∧
    mc.generate fuel n = mc.generate_with_rng fuel default_rng n ∧
    mc.generate_from fuel n st = mc.generate_with_rng_from fuel default_rng n st ∧
    lipsum mc fuel n = mc.generate_with_rng_from fuel default_rng n ("Lorem".toList, "ipsum".toList) ∧
    lipsum_words mc fuel n = mc.generate_with_rng fuel default_rng n := by
  have hr : r1 = r2 := by
    rcases r1 with ⟨s1, i1⟩
    rcases r2 with ⟨s2, i2⟩
    cases h1
    cases h2
    rfl
  subst hr
  exact ⟨rfl, rfl, rfl, rfl, rfl, rfl⟩

theorem claim7_witness :
    (⟨fun _ => 5, 0⟩ : Rng).seq = (⟨fun _ => 5, 0⟩ : Rng).seq ∧
    (learnAll ["foo bar baz quuz".toList]).generate_with_rng 1 ⟨fun _ => 5, 0⟩ 2
      = (learnAll ["foo bar baz quuz".toList]).generate_with_rng 1 ⟨fun _ => 5, 0⟩ 2 :=
  ⟨rfl,
    (claim7_determinism (learnAll ["foo bar baz quuz".toList]) 1 2 ([], [])
      ⟨fun _ => 5, 0⟩ ⟨fun _ => 5, 0⟩ rfl rfl).1⟩

theorem wordsTake_empty_map (fuel : Nat) (keys : List Bigram) (st : Bigram) (r : Rng) :
    ∀ n, wordsTake fuel n ⟨[], keys, st, r⟩ = some [] := by
  intro n
  cases n <;> rfl

/-- C8: On a chain on which `learn` was never called, `generate` returns the
empty string for every word count and every random source, and the word
stream yields nothing on its very first `next`. -/
theorem claim8_empty_chain (n fuel : Nat) (rng : Rng) (st : Bigram) :
    MarkovChain.new.map = [] ∧
    MarkovChain.new.generate fuel n = some [] ∧
    MarkovChain.new.generate_with_rng fuel rng n = some [] ∧
    Words.next fuel (MarkovChain.new.iter_with_rng_from rng st) = some none := by
  refine ⟨rfl, ?_, ?_, rfl⟩
  · show (wordsTake fuel n ⟨[], [], ([], []), default_rng⟩).map join_words = some []
    rw [wordsTake_empty_map]
    rfl
  · show (wordsTake fuel n ⟨[], [], ([], []), rng⟩).map join_words = some []
    rw [wordsTake_empty_map]
    rfl

/-- C10: For a chain whose key index equals its table's key set (as `learn`
establishes) and whose table is non-empty, the recovery loop inside `next`
performs at most one random draw: its result is independent of the fuel bound
(any `fuel ≥ 1` equals fuel `1`) and it always succeeds, so `next` is total. -/
theorem claim10_recovery_single_iteration (map : List (Bigram × List Word))
    (keys : List Bigram) (st : Bigram) (r : Rng) (fuel : Nat)
    (hkeys : ∀ k ∈ keys, (findMap map k).isSome)
    (hsub : ∀ kv ∈ map, kv.1 ∈ keys)
    (hsucc : ∀ kv ∈ map, kv.2 ≠ [])
    (hmapne : map ≠ [])
    (hfuel : 1 ≤ fuel) :
    recover map keys fuel st r = recover map keys 1 st r ∧
    (recover map keys 1 st r).isSome = true ∧
    Words.next fuel ⟨map, keys, st, r⟩ = Words.next 1 ⟨map, keys, st, r⟩ ∧
    (Words.next 1 ⟨map, keys, st, r⟩).isSome = true := by
  have hkne : keys ≠ [] := by
    rcases map with _ | ⟨kv, rest⟩
    · exact absurd rfl hmapne
    · exact List.ne_nil_of_mem (hsub kv (by simp))
  obtain ⟨heq, hsome⟩ := recover_fuel_indep hkeys hkne fuel hfuel st r
  refine ⟨heq, hsome, ?_, ?_⟩
  · unfold Words.next
    rw [heq]
  · have hsome1 : (recover map keys 1 st r).isSome = true := hsome
    obtain ⟨⟨st', r'⟩, hrec⟩ := Option.isSome_iff_exists.mp hsome1
    obtain ⟨sl, hfs⟩ := Option.isSome_iff_exists.mp (recover_isSome_find hrec)
    obtain ⟨c, r'', hch, _⟩ := chooseL_exists (hsucc _ (findMap_mem hfs)) r'
    rw [words_next_eq hmapne hrec hfs hch]
    rfl

theorem claim10_witness :
    recover [(("xxx".toList, "yyy".toList), ["zzz".toList])] [("xxx".toList, "yyy".toList)]
        7 ("yyy".toList, "zzz".toList) ⟨fun _ => 0, 0⟩
      = recover [(("xxx".toList, "yyy".toList), ["zzz".toList])] [("xxx".toList, "yyy".toList)]
        1 ("yyy".toList, "zzz".toList) ⟨fun _ => 0, 0⟩ ∧
    (recover [(("xxx".toList, "yyy".toList), ["zzz".toList])] [("xxx".toList, "yyy".toList)]
        1 ("yyy".toList, "zzz".toList) ⟨fun _ => 0, 0⟩).isSome = true ∧
    Words.next 7 ⟨[(("xxx".toList, "yyy".toList), ["zzz".toList])],
        [("xxx".toList, "yyy".toList)], ("yyy".toList, "zzz".toList), ⟨fun _ => 0, 0⟩⟩
      = Words.next 1 ⟨[(("xxx".toList, "yyy".toList), ["zzz".toList])],
        [("xxx".toList, "yyy".toList)], ("yyy".toList, "zzz".toList), ⟨fun _ => 0, 0⟩⟩ ∧
    (Words.next 1 ⟨[(("xxx".toList, "yyy".toList), ["zzz".toList])],
        [("xxx".toList, "yyy".toList)], ("yyy".toList, "zzz".toList), ⟨fun _ => 0, 0⟩⟩).isSome = true :=
  claim10_recovery_single_iteration
    [(("xxx".toList, "yyy".toList), ["zzz".toList])] [("xxx".toList, "yyy".toList)]
    ("yyy".toList, "zzz".toList) ⟨fun _ => 0, 0⟩ 7
    (by decide) (by decide) (by decide) (by decide) (by decide)

theorem endsSentencePunct_concat (xs : List Char) (c : Char) :
    endsSentencePunct (xs ++ [c]) = isSentencePunct c := by
  unfold endsSentencePunct
  rw [List.getLast?_concat]

theorem normalizeSentence_ends (s : Word) :
    endsSentencePunct (normalizeSentence s) = true := by
  unfold normalizeSentence
  by_cases h : endsSentencePunct s = true
  · rw [if_pos h]
    exact h
  · rw [if_neg h, endsSentencePunct_concat]
    decide

theorem wordsTake_cons {fuel n : Nat} {w : Words} {x : Word} {w' : Words}
    (h : w.next fuel = some (some (x, w'))) :
    wordsTake fuel (n + 1) w = (wordsTake fuel n w').map (x :: ·) := by
  show (match w.next fuel with
    | none => none
    | some none => some []
    | some (some (x, w')) => (wordsTake fuel n w').map (x :: ·)) = _
  rw [h]

/-- C2: For every `n ≥ 0` and every chain (satisfying the `learn`-established
invariants) with at least one transition, `generate_with_rng` — hence
`generate`, its `default_rng` instance — returns a string whose
whitespace-delimited word count is exactly `n`, and the empty string for
`n = 0`. -/
theorem claim2_generate_word_count (mc : MarkovChain) (hok : ChainOk mc)
    (hne : mc.map ≠ []) (fuel n : Nat) (hfuel : 1 ≤ fuel) (rng : Rng) :
    (mc.generate_with_rng fuel rng n).isSome = true ∧
    (splitWS ((mc.generate_with_rng fuel rng n).getD [])).length = n ∧
    (n = 0 → (mc.generate_with_rng fuel rng n).getD [] = []) := by
  obtain ⟨h1, h2, h3, h4⟩ := hok
  have hkne : mc.keys ≠ [] := by
    rcases hm : mc.map with _ | ⟨kv, rest⟩
    · exact absurd hm hne
    · exact List.ne_nil_of_mem (h2 kv (by rw [hm]; exact List.mem_cons_self _ _))
  obtain ⟨b, rng', hch, hbm⟩ := chooseL_exists hkne rng
  have hbtok : Token b.1 := by
    obtain ⟨v, hv⟩ := Option.isSome_iff_exists.mp (h1 b hbm)
    exact (h4 _ (findMap_mem hv)).1
  obtain ⟨ws, hws, hlen, htoks⟩ := wordsTake_total h1 hkne h3 hne h4 hfuel n b rng'
  have hgen : mc.generate_with_rng fuel rng n = some (join_words ws) := by
    unfold MarkovChain.generate_with_rng MarkovChain.iter_with_rng
    have hmE : ¬(mc.map.isEmpty = true) := by simp [List.isEmpty_iff, hne]
    rw [if_neg hmE]
    simp only [hch]
    show (wordsTake fuel n ⟨mc.map, mc.keys, b, rng'⟩).map join_words = _
    rw [hws]
    rfl
  rw [hgen]
  refine ⟨rfl, ?_, ?_⟩
  · show (splitWS (join_words ws)).length = n
    by_cases h0 : ws = []
    · subst h0
      rw [← hlen]
      rfl
    · rw [join_words_count h0 (htoks hbtok), hlen]
  · intro h0
    subst h0
    have hnil : ws = [] := List.length_eq_zero.mp hlen
    subst hnil
    rfl

theorem claim2_witness :
    ((learnAll ["foo bar baz quuz".toList]).generate_with_rng 1 ⟨fun _ => 0, 0⟩ 3).isSome = true ∧
    (splitWS (((learnAll ["foo bar baz quuz".toList]).generate_with_rng 1
        ⟨fun _ => 0, 0⟩ 3).getD [])).length = 3 ∧
    (3 = 0 → ((learnAll ["foo bar baz quuz".toList]).generate_with_rng 1
        ⟨fun _ => 0, 0⟩ 3).getD [] = []) :=
  claim2_generate_word_count (learnAll ["foo bar baz quuz".toList]) (by decide)
    (by decide) 1 3 (by decide) ⟨fun _ => 0, 0⟩

/-- C3: For every chain satisfying the `learn`-established invariants with a
non-empty table, every `n` and every starting bigram — valid key or not —
`generate_with_rng_from` (and `generate_from`, its `default_rng` instance)
returns normally: the recovery draw and the successor draw never hit their
`None`/panic branches. -/
theorem claim3_generate_from_no_panic (mc : MarkovChain) (hok : ChainOk mc)
    (hne : mc.map ≠ []) (fuel n : Nat) (hfuel : 1 ≤ fuel) (st : Bigram) (rng : Rng) :
    (mc.generate_with_rng_from fuel rng n st).isSome = true ∧
    (mc.generate_from fuel n st).isSome = true := by
  obtain ⟨h1, h2, h3, h4⟩ := hok
  have hkne : mc.keys ≠ [] := by
    rcases hm : mc.map with _ | ⟨kv, rest⟩
    · exact absurd hm hne
    · exact List.ne_nil_of_mem (h2 kv (by rw [hm]; exact List.mem_cons_self _ _))
  have key : ∀ r : Rng, (mc.generate_with_rng_from fuel r n st).isSome = true := by
    intro r
    obtain ⟨ws, hws, _, _⟩ := wordsTake_total h1 hkne h3 hne h4 hfuel n st r
    show ((wordsTake fuel n ⟨mc.map, mc.keys, st, r⟩).map join_words).isSome = true
    rw [hws]
    rfl
  exact ⟨key rng, key default_rng⟩

theorem claim3_witness :
    ((learnAll ["foo bar baz".toList]).generate_with_rng_from 1 ⟨fun _ => 3, 0⟩ 5
        ("xxx".toList, "yyy".toList)).isSome = true ∧
    ((learnAll ["foo bar baz".toList]).generate_from 1 5
        ("xxx".toList, "yyy".toList)).isSome = true :=
  claim3_generate_from_no_panic (learnAll ["foo bar baz".toList]) (by decide)
    (by decide) 1 5 (by decide) ("xxx".toList, "yyy".toList) ⟨fun _ => 3, 0⟩

/-- C5: For every non-empty input word sequence the formatter's output ends
in `.`, `!` or `?`; if the joined string already ends in one of those it is
returned unmodified, otherwise all trailing ASCII punctuation is stripped
(the character preceding the appended `.` is never ASCII punctuation, so
`",."` can not arise) and a single `.` is appended. -/
theorem claim5_terminal_punctuation (w : Word) (ws : List Word) :
    endsSentencePunct (join_words (w :: ws)) = true ∧
    (endsSentencePunct (joinTail (capitalize w) (endsSentencePunct (capitalize w)) ws) = true →
      join_words (w :: ws)
        = joinTail (capitalize w) (endsSentencePunct (capitalize w)) ws) ∧
    (endsSentencePunct (joinTail (capitalize w) (endsSentencePunct (capitalize w)) ws) = false →
      join_words (w :: ws)
        = trimTrailing isAsciiPunct
            (joinTail (capitalize w) (endsSentencePunct (capitalize w)) ws) ++ ['.'] ∧
      ∀ d, (trimTrailing isAsciiPunct
          (joinTail (capitalize w) (endsSentencePunct (capitalize w)) ws)).getLast? = some d →
        isAsciiPunct d = false) := by
  refine ⟨normalizeSentence_ends _, ?_, ?_⟩
  · intro ht
    show normalizeSentence (joinTail (capitalize w) (endsSentencePunct (capitalize w)) ws) = _
    unfold normalizeSentence
    rw [if_pos ht]
  · intro hf
    refine ⟨?_, fun d hd => trim_getLast_not _ _ _ hd⟩
    show normalizeSentence (joinTail (capitalize w) (endsSentencePunct (capitalize w)) ws) = _
    unfold normalizeSentence
    rw [if_neg (by simp [hf])]

theorem claim5_witness :
    (endsSentencePunct (joinTail (capitalize "hi,".toList)
        (endsSentencePunct (capitalize "hi,".toList)) []) = false ∧
      join_words ["hi,".toList] = "Hi.".toList) ∧
    (endsSentencePunct (joinTail (capitalize "ok!".toList)
        (endsSentencePunct (capitalize "ok!".toList)) []) = true ∧
      join_words ["ok!".toList] = "Ok!".toList) := by
  refine ⟨⟨by decide, ?_⟩, ⟨by decide, ?_⟩⟩
  · have h := (claim5_terminal_punctuation ("hi,".toList) []).2.2 (by decide)
    rw [h.1]
    decide
  · have h := (claim5_terminal_punctuation ("ok!".toList) []).2.1 (by decide)
    rw [h]
    decide

/-- C9, counterexample: on the chain learned from `"foo bar baz quuz"`, the
bigram `("foo", "bar")` has the single successor `"baz"`, yet
`generate_from(1, ("foo", "bar"))` is the formatted single word `"Foo."` and
not the formatted two-word-plus-successor continuation `"Foo bar baz."`. -/
theorem claim9_counterexample :
    (learnAll ["foo bar baz quuz".toList]).words ("foo".toList, "bar".toList)
      = some ["baz".toList] ∧
    (learnAll ["foo bar baz quuz".toList]).generate_from 1 1 ("foo".toList, "bar".toList)
      ≠ some (join_words ["foo".toList, "bar".toList, "baz".toList]) ∧
    (learnAll ["foo bar baz quuz".toList]).generate_from 1 1 ("foo".toList, "bar".toList)
      = some (join_words ["foo".toList]) := by
  refine ⟨by decide, by decide, by decide⟩

/-- C9, amended: for a learned bigram `(a, b)` with the single successor `c`,
`generate_from(1, (a, b))` yields exactly the formatted first word `a`; the
formatted two-word-plus-successor continuation `a b c` is the value of
`generate_from(3, (a, b))` whenever `(b, c)` is itself a key of the table. -/
theorem claim9_amended (mc : MarkovChain) (hok : ChainOk mc) (a b c : Word)
    (fuel : Nat) (hfuel : 1 ≤ fuel)
    (hab : findMap mc.map (a, b) = some [c]) :
    mc.generate_from fuel 1 (a, b) = some (join_words [a]) ∧
    ((findMap mc.map (b, c)).isSome = true →
      mc.generate_from fuel 3 (a, b) = some (join_words [a, b, c])) := by
  obtain ⟨h1, h2, h3, h4⟩ := hok
  have hmapne : mc.map ≠ [] := List.ne_nil_of_mem (findMap_mem hab)
  have hkne : mc.keys ≠ [] := List.ne_nil_of_mem (h2 _ (findMap_mem hab))
  have hrec1 : recover mc.map mc.keys fuel (a, b) default_rng
      = some ((a, b), default_rng) :=
    recover_of_valid _ _ (by rw [hab]; rfl) fuel
  have hch1 := chooseL_singleton c default_rng
  have hnext1 := words_next_eq hmapne hrec1 hab hch1
  constructor
  · show (wordsTake fuel 1 ⟨mc.map, mc.keys, (a, b), default_rng⟩).map join_words = _
    rw [show (1 : Nat) = 0 + 1 from rfl, wordsTake_cons hnext1]
    rfl
  · intro hbc
    obtain ⟨sl2, hfs2⟩ := Option.isSome_iff_exists.mp hbc
    obtain ⟨d, r2, hch2, _⟩ :=
      chooseL_exists (h3 _ (findMap_mem hfs2)) ⟨default_rng.seq, default_rng.idx + 1⟩
    have hrec2 : recover mc.map mc.keys fuel (b, c) ⟨default_rng.seq, default_rng.idx + 1⟩
        = some ((b, c), ⟨default_rng.seq, default_rng.idx + 1⟩) :=
      recover_of_valid _ _ (by rw [hfs2]; rfl) fuel
    have hnext2 := words_next_eq hmapne hrec2 hfs2 hch2
    obtain ⟨heq3, hsome3⟩ := recover_fuel_indep h1 hkne fuel hfuel (c, d) r2
    have hrs3 : (recover mc.map mc.keys fuel (c, d) r2).isSome := by
      rw [heq3]
      exact hsome3
    obtain ⟨⟨st3, r3⟩, hrec3⟩ := Option.isSome_iff_exists.mp hrs3
    obtain ⟨sl3, hfs3⟩ := Option.isSome_iff_exists.mp (recover_isSome_find hrec3)
    obtain ⟨e, r4, hch3, _⟩ := chooseL_exists (h3 _ (findMap_mem hfs3)) r3
    have hnext3 := words_next_eq hmapne hrec3 hfs3 hch3
    show (wordsTake fuel 3 ⟨mc.map, mc.keys, (a, b), default_rng⟩).map join_words = _
    rw [show (3 : Nat) = 2 + 1 from rfl, wordsTake_cons hnext1,
      show (2 : Nat) = 1 + 1 from rfl, wordsTake_cons hnext2,
      show (1 : Nat) = 0 + 1 from rfl, wordsTake_cons hnext3]
    rfl

theorem claim9_witness :
    (learnAll ["foo bar baz quuz".toList]).generate_from 1 1 ("foo".toList, "bar".toList)
      = some (join_words ["foo".toList]) ∧
    ((findMap (learnAll ["foo bar baz quuz".toList]).map ("bar".toList, "baz".toList)).isSome = true →
      (learnAll ["foo bar baz quuz".toList]).generate_from 1 3 ("foo".toList, "bar".toList)
        = some (join_words ["foo".toList, "bar".toList, "baz".toList])) :=
  claim9_amended (learnAll ["foo bar baz quuz".toList]) (by decide)
    ("foo".toList) ("bar".toList) ("baz".toList) 1 (by decide) (by decide)




